import Mathlib

/-!
# Verification of the videocatalog cut-detection core

A shallow embedding of `src/videocatalog/detection.py` and
`src/videocatalog/models.py` (the detection-and-verification pipeline:
noise zones, noise suppression, candidate building, greedy selection,
verification cascade), together with proofs of the spec's testable
properties.

Python `float` values are modelled as `ℚ`, Python `int` as `ℤ`
(window sizes, which are iteration counts, as `ℕ`).  Python dicts keyed
by `int` are modelled as insertion-ordered association lists.  The
frame-pair comparator (ffmpeg frame extraction + OpenCV histogram
correlation) is modelled as an oracle `ℚ → ℚ → Option ℚ`: given the two
(already clamped) extraction timestamps it returns the similarity of
the two frames, or `none` when a frame cannot be extracted or read.
-/

/-- Python `int(x)` applied to a float: truncation toward zero. -/
def pyInt (q : ℚ) : ℤ := if 0 ≤ q then ⌊q⌋ else ⌈q⌉

/-- `models.py` `NoiseZone` (imported there; record shape from spec §3
and from every use site in `detection.py`): `(start, end, detection_count)`.
The field `end` is a Lean keyword, so it is named `stop` here. -/
structure NoiseZone where
  start : ℚ
  stop : ℚ
  detection_count : ℤ
deriving DecidableEq, Repr

/-- `models.py` `CutCandidate`: a potential cut point. -/
structure CutCandidate where
  time : ℚ
  scene_score : ℚ
  black_duration : ℚ
  audio_step : ℚ
deriving DecidableEq, Repr

/-- `models.py` `CutCandidate.confidence_score`:
raw scene score (truncated to int) plus 10-point bonuses for
corroborating black frames (`black_duration >= 0.2`) and corroborating
audio change (`audio_step >= 5`). -/
def CutCandidate.confidence_score (c : CutCandidate) : ℤ :=
  pyInt c.scene_score
    + (if c.black_duration ≥ 0.2 then 10 else 0)
    + (if c.audio_step ≥ 5 then 10 else 0)

/-! ## Association-list helpers (Python `dict[int, α]`) -/

/-- `m[k]` lookup: first binding of key `k`. -/
def alookup {α : Type} (m : List (ℤ × α)) (k : ℤ) : Option α :=
  (m.find? (fun p => decide (p.1 = k))).map Prod.snd

/-- `k in m`. -/
def amem {α : Type} (m : List (ℤ × α)) (k : ℤ) : Bool :=
  m.any (fun p => decide (p.1 = k))

/-- `m[k] = v`: replace the first binding of `k`, or append a new one. -/
def aset {α : Type} (m : List (ℤ × α)) (k : ℤ) (v : α) : List (ℤ × α) :=
  match m with
  | [] => [(k, v)]
  | p :: rest => if p.1 = k then (k, v) :: rest else p :: aset rest k v

/-! ## Noise Zone Detector (`detection.py` `detect_noise_zones`) -/

/-- `Counter(int(t) for t, _ in scenes)[s]`: number of scene events whose
time truncates to second `s`. -/
def detections_per_sec (scenes : List (ℚ × ℚ)) (s : ℤ) : ℕ :=
  (scenes.filter (fun p => decide (pyInt p.1 = s))).length

/-- The seconds `[a, b)` as a list (Python `range(a, b)` over `int`). -/
def intRange (a b : ℤ) : List ℤ :=
  (List.range (b - a).toNat).map (fun (i : ℕ) => a + (i : ℤ))

/-- Total detections in the window `[t, t + w)`. -/
def windowTotal (scenes : List (ℚ × ℚ)) (w : ℕ) (t : ℤ) : ℕ :=
  ((List.range w).map (fun (i : ℕ) => detections_per_sec scenes (t + (i : ℤ)))).sum

/-- The high-density window starts: `t` in
`range(min_t, max_t - window_size + 2)` whose window average meets the
threshold. -/
def high_density_secs (scenes : List (ℚ × ℚ)) (w : ℕ) (avg_threshold : ℚ)
    (min_t max_t : ℤ) : List ℤ :=
  (intRange min_t (max_t - (w : ℤ) + 2)).filter
    (fun t => decide ((windowTotal scenes w t : ℚ) / (w : ℚ) ≥ avg_threshold))

/-- The zone emitted for the group `[zone_start, zone_end]` of consecutive
high-density starts, provided it is long enough (`zone_duration =
zone_end - zone_start + window_size`). -/
def emitZone (scenes : List (ℚ × ℚ)) (w : ℕ) (min_duration : ℚ)
    (zone_start zone_end : ℤ) : List NoiseZone :=
  let zone_duration : ℤ := zone_end - zone_start + (w : ℤ)
  if (zone_duration : ℚ) ≥ min_duration then
    [⟨(zone_start : ℚ), ((zone_start + zone_duration : ℤ) : ℚ),
      ((intRange 0 zone_duration).map
        (fun i => (detections_per_sec scenes (zone_start + i) : ℤ))).sum⟩]
  else []

/-- The grouping loop of `detect_noise_zones`: collapse consecutive
high-density starting seconds into zones.  State: `zones` accumulated so
far, current `zone_start`/`zone_end`, remaining starts. -/
def groupZones (scenes : List (ℚ × ℚ)) (w : ℕ) (min_duration : ℚ)
    (zones : List NoiseZone) (zone_start zone_end : ℤ) :
    List ℤ → List NoiseZone
  | [] => zones ++ emitZone scenes w min_duration zone_start zone_end
  | t :: ts =>
    if t ≤ zone_end + 1 then
      groupZones scenes w min_duration zones zone_start t ts
    else
      groupZones scenes w min_duration
        (zones ++ emitZone scenes w min_duration zone_start zone_end) t t ts

/-- `min(detections_per_sec.keys())`: smallest second with a detection. -/
def minKey (scenes : List (ℚ × ℚ)) : ℤ :=
  (scenes.map (fun p => pyInt p.1)).foldl min
    ((scenes.map (fun p => pyInt p.1)).headD 0)

/-- `max(detections_per_sec.keys())`: largest second with a detection. -/
def maxKey (scenes : List (ℚ × ℚ)) : ℤ :=
  (scenes.map (fun p => pyInt p.1)).foldl max
    ((scenes.map (fun p => pyInt p.1)).headD 0)

/-- The raw (pre-merge) zones of `detect_noise_zones`. -/
def rawZones (scenes : List (ℚ × ℚ)) (w : ℕ) (avg_threshold min_duration : ℚ) :
    List NoiseZone :=
  if scenes.isEmpty then [] else
  match high_density_secs scenes w avg_threshold (minKey scenes) (maxKey scenes) with
  | [] => []
  | h :: rest => groupZones scenes w min_duration [] h h rest

/-- The merge loop: coalesce zones separated by at most `merge_gap`,
summing detection counts. -/
def mergeZones (merge_gap : ℚ) : NoiseZone → List NoiseZone → List NoiseZone
  | cur, [] => [cur]
  | cur, z :: rest =>
    if z.start - cur.stop ≤ merge_gap then
      mergeZones merge_gap
        ⟨cur.start, z.stop, cur.detection_count + z.detection_count⟩ rest
    else
      cur :: mergeZones merge_gap z rest

/-- `detection.py` `detect_noise_zones`: sliding-window density scan,
grouping, minimum-duration filter, merge. -/
def detect_noise_zones (scenes : List (ℚ × ℚ)) (w : ℕ)
    (avg_threshold min_duration merge_gap : ℚ) : List NoiseZone :=
  match rawZones scenes w avg_threshold min_duration with
  | [] => []
  | z :: zs => mergeZones merge_gap z zs

/-! ## Noise Suppressor (`detection.py` `suppress_noise_detections`) -/

/-- `detection.py` `suppress_noise_detections`: drop scene events strictly
inside a noise zone's interior (more than `boundary_margin` from both
boundaries). -/
def suppress_noise_detections (scenes : List (ℚ × ℚ))
    (noise_zones : List NoiseZone) (boundary_margin : ℚ) : List (ℚ × ℚ) :=
  if noise_zones.isEmpty then scenes else
  scenes.filter (fun p =>
    ! noise_zones.any (fun zone =>
      decide (zone.start + boundary_margin < p.1) &&
        decide (p.1 < zone.stop - boundary_margin)))

/-! ## Candidate Builder and Greedy Selector (`detection.py` `find_cuts`) -/

/-- Key list of a Python dict built by insertion: first-occurrence order,
no duplicates. -/
def firstKeys (l : List ℤ) : List ℤ :=
  l.foldl (fun acc k => if k ∈ acc then acc else acc ++ [k]) []

/-- The keys of `scene_clusters` (equivalently `scene_totals`,
`scene_max`, `scene_best_time`): integer seconds with at least one
surviving scene event, in insertion order. -/
def sceneKeys (filtered : List (ℚ × ℚ)) : List ℤ :=
  firstKeys (filtered.map (fun p => pyInt p.1))

/-- `scene_clusters[t]`: the surviving scene events whose time truncates
to second `t`. -/
def clusterOf (filtered : List (ℚ × ℚ)) (t : ℤ) : List (ℚ × ℚ) :=
  filtered.filter (fun p => decide (pyInt p.1 = t))

/-- Python `max(detections, key=lambda x: x[1])`: first detection of
maximal score (folding from an initial detection). -/
def bestDetection (d : ℚ × ℚ) (ds : List (ℚ × ℚ)) : ℚ × ℚ :=
  ds.foldl (fun b x => if x.2 > b.2 then x else b) d

/-- `scene_max` as built in `find_cuts`: strongest single score per
clustered second. -/
def scene_max (filtered : List (ℚ × ℚ)) : List (ℤ × ℚ) :=
  (sceneKeys filtered).map (fun t =>
    (t, match clusterOf filtered t with
        | [] => 0
        | d :: ds => (bestDetection d ds).2))

/-- `black_map`: second ↦ `(end_time, duration)` keeping the longest
duration per second. -/
def black_map (blacks : List (ℚ × ℚ)) : List (ℤ × (ℚ × ℚ)) :=
  blacks.foldl (fun m p =>
    let t := pyInt p.1
    match alookup m t with
    | none => m ++ [(t, p)]
    | some q => if p.2 > q.2 then aset m t p else m) []

/-- Python `range(-window, window + 1)`. -/
def offsets (window : ℕ) : List ℤ :=
  (List.range (2 * window + 1)).map (fun (i : ℕ) => (i : ℤ) - (window : ℤ))

/-- The corroboration scan of `find_cuts`: largest black-frame duration
and audio step within `±window` seconds of `t`. -/
def corroboration (bm : List (ℤ × (ℚ × ℚ))) (audio : List (ℤ × ℚ))
    (window : ℕ) (t : ℤ) : ℚ × ℚ :=
  (offsets window).foldl
    (fun best o =>
      let check_t := t + o
      let b1 := match alookup bm check_t with
        | some q => if q.2 > best.1 then q.2 else best.1
        | none => best.1
      let b2 := match alookup audio check_t with
        | some st => if st > best.2 then st else best.2
        | none => best.2
      (b1, b2)) (0, 0)

/-- The scene-cluster candidate for second `t` (none when the cluster is
empty or its strongest detection is below the 8-point floor).  The
candidate's time is the time of the strongest detection; its score is
the cluster total; the audio bonus only applies when `max_score >= 10`. -/
def sceneCandidate (filtered : List (ℚ × ℚ)) (bm : List (ℤ × (ℚ × ℚ)))
    (audio : List (ℤ × ℚ)) (window : ℕ) (t : ℤ) : Option CutCandidate :=
  match clusterOf filtered t with
  | [] => none
  | d :: ds =>
    if (bestDetection d ds).2 < 8 then none
    else
      some ⟨(bestDetection d ds).1,
        ((d :: ds).map Prod.snd).sum,
        (corroboration bm audio window t).1,
        if (bestDetection d ds).2 ≥ 10 then (corroboration bm audio window t).2
        else 0⟩

/-- All scene-cluster candidates, in cluster-key insertion order. -/
def sceneCandidates (filtered : List (ℚ × ℚ)) (bm : List (ℤ × (ℚ × ℚ)))
    (audio : List (ℤ × ℚ)) (window : ℕ) : List CutCandidate :=
  (sceneKeys filtered).filterMap (sceneCandidate filtered bm audio window)

/-- Audio-only candidates: a strong audio step (`>= 15`) at a second with
no scene cluster at all. -/
def audioCandidates (filtered : List (ℚ × ℚ)) (bm : List (ℤ × (ℚ × ℚ)))
    (audio : List (ℤ × ℚ)) : List CutCandidate :=
  audio.filterMap (fun p =>
    if p.2 ≥ (15 : ℚ) ∧ p.1 ∉ sceneKeys filtered then
      some ⟨(p.1 : ℚ), 0,
        (match alookup bm p.1 with | some q => q.2 | none => 0), p.2⟩
    else none)

/-- One iteration of the greedy selection loop: skip the candidate when
its confidence is below `min_confidence` or it is within `min_gap` of an
already accepted candidate, otherwise append it. -/
def greedyStep (min_confidence : ℤ) (min_gap : ℚ)
    (sel : List CutCandidate) (c : CutCandidate) : List CutCandidate :=
  if c.confidence_score < min_confidence then sel
  else if sel.any (fun e => decide (|c.time - e.time| < min_gap)) then sel
  else sel ++ [c]

/-- The greedy selection loop: walk candidates (already sorted by
confidence descending). -/
def greedySelect (min_confidence : ℤ) (min_gap : ℚ)
    (cands : List CutCandidate) : List CutCandidate :=
  cands.foldl (greedyStep min_confidence min_gap) []

/-- `filtered_scenes` in `find_cuts`: the scene events surviving noise
suppression (noise-zone detection and suppression use their defaults, as
in the source). -/
def pipelineFiltered (scenes : List (ℚ × ℚ)) : List (ℚ × ℚ) :=
  suppress_noise_detections scenes (detect_noise_zones scenes 10 (5/2) 10 5) 5

/-- `candidates` in `find_cuts`: scene-cluster candidates followed by
audio-only candidates. -/
def pipelineCandidates (scenes blacks : List (ℚ × ℚ)) (audio : List (ℤ × ℚ))
    (window : ℕ) : List CutCandidate :=
  sceneCandidates (pipelineFiltered scenes) (black_map blacks) audio window ++
    audioCandidates (pipelineFiltered scenes) (black_map blacks) audio

/-- `detection.py` `find_cuts` with `return_all=True`:
`(result, candidates, scene_max, noise_zones)`. -/
def find_cuts_all (scenes blacks : List (ℚ × ℚ)) (audio : List (ℤ × ℚ))
    (min_confidence : ℤ) (min_gap : ℚ) (window : ℕ) :
    List CutCandidate × List CutCandidate × List (ℤ × ℚ) × List NoiseZone :=
  (List.insertionSort (fun a b => a.time ≤ b.time)
      (greedySelect min_confidence min_gap
        (List.insertionSort (fun a b => b.confidence_score ≤ a.confidence_score)
          (pipelineCandidates scenes blacks audio window))),
    pipelineCandidates scenes blacks audio window,
    scene_max (pipelineFiltered scenes),
    detect_noise_zones scenes 10 (5/2) 10 5)

/-- `detection.py` `find_cuts` (the selected, chronologically re-sorted
list). -/
def find_cuts (scenes blacks : List (ℚ × ℚ)) (audio : List (ℤ × ℚ))
    (min_confidence : ℤ) (min_gap : ℚ) (window : ℕ) : List CutCandidate :=
  (find_cuts_all scenes blacks audio min_confidence min_gap window).1

/-! ## Verification Cascade (`detection.py` `verify_candidates`) -/

/-- The frame-pair comparator capability: similarity of the frames
extracted at two (clamped) timestamps, `none` when a frame cannot be
extracted or read. -/
def Comparator : Type := ℚ → ℚ → Option ℚ

/-- `detection.py` `verify_scene_change`: histogram check of the frames
0.5s before/after.  When a frame is missing or unreadable the source
returns `(True, 0.0)` — the candidate counts as valid. -/
def verify_scene_change (cmp : Comparator) (time threshold : ℚ) : Bool × ℚ :=
  match cmp (max 0 (time - 0.5)) (time + 0.5) with
  | none => (true, 0)
  | some s => (decide (s < threshold), s)

/-- `compare_frames` inside `check_scene_stability`: similarity of a
frame pair, `0.0` when a frame is missing or unreadable. -/
def compare_frames (cmp : Comparator) (before_time after_time : ℚ) : ℚ :=
  match cmp (max 0 before_time) after_time with
  | none => 0
  | some s => s

/-- `detection.py` `check_scene_stability`: flash detection comparing
frame pairs at ±0.5s and ±2s. -/
def check_scene_stability (cmp : Comparator) (time threshold : ℚ) :
    Bool × ℚ × ℚ :=
  let sim_short := compare_frames cmp (time - 0.5) (time + 0.5)
  let sim_long := compare_frames cmp (time - 2) (time + 2)
  (decide ((sim_short ≥ threshold ∨ sim_long ≥ threshold) ∧
      min sim_short sim_long ≥ 0.85),
    sim_short, sim_long)

/-- `detection.py` `is_near_noise_zone`. -/
def is_near_noise_zone (time : ℚ) (noise_zones : List NoiseZone)
    (margin : ℚ) : Bool :=
  noise_zones.any (fun zone =>
    decide (zone.start - margin ≤ time) && decide (time ≤ zone.stop + margin))

/-- One pass of the verification cascade for a single candidate:
black-frame bypass, noise-zone histogram check, audio branch with flash
check, borderline scene-only histogram check, flash check. -/
def verifyOne (cmp : Comparator) (scene_max_scores : List (ℤ × ℚ))
    (noise_zones : List NoiseZone) (threshold : ℚ) (c : CutCandidate) : Bool :=
  let max_score := match alookup scene_max_scores (pyInt c.time) with
    | some v => v
    | none => 0
  if c.black_duration ≥ 0.2 then true
  else if is_near_noise_zone c.time noise_zones 10 &&
      !(verify_scene_change cmp c.time threshold).1 then false
  else if c.audio_step ≥ 5 then
    !(check_scene_stability cmp c.time (955/1000)).1
  else if decide (max_score < 10) &&
      !(verify_scene_change cmp c.time threshold).1 then false
  else !(check_scene_stability cmp c.time (955/1000)).1

/-- `detection.py` `verify_candidates`: keep the candidates the cascade
accepts, in order. -/
def verify_candidates (cmp : Comparator) (cands : List CutCandidate)
    (scene_max_scores : List (ℤ × ℚ)) (noise_zones : List NoiseZone)
    (threshold : ℚ) : List CutCandidate :=
  cands.filter (verifyOne cmp scene_max_scores noise_zones threshold)

/-! ## Basic lemmas about the embedding -/

theorem pyInt_intCast (n : ℤ) : pyInt (n : ℚ) = n := by
  unfold pyInt
  split
  · exact Int.floor_intCast n
  · exact Int.ceil_intCast n

theorem pyInt_mono {a b : ℚ} (h : a ≤ b) : pyInt a ≤ pyInt b := by
  unfold pyInt
  split
  · split
    · exact Int.floor_le_floor h
    · exact absurd (le_trans (by assumption) h) (by assumption)
  · split
    · calc ⌈a⌉ ≤ ⌈(0 : ℚ)⌉ := Int.ceil_le_ceil (le_of_not_le (by assumption))
        _ = ⌊(0 : ℚ)⌋ := by norm_num
        _ ≤ ⌊b⌋ := Int.floor_le_floor (by assumption)
    · exact Int.ceil_le_ceil h

theorem pyInt_nonneg_eq_floor {q : ℚ} (h : 0 ≤ q) : pyInt q = ⌊q⌋ := by
  unfold pyInt
  exact if_pos h

/-- A helper: `confidence_score` of a candidate with no black or audio
signal is the truncated scene score. -/
theorem confidence_scene_only (t s : ℚ) :
    (CutCandidate.mk t s 0 0).confidence_score = pyInt s := by
  unfold CutCandidate.confidence_score
  norm_num

/-! ## C5 — Monotonic scoring -/

/-- C5: increasing any one of `scene_score`, `black_duration`,
`audio_step` while holding the other two fixed never decreases
`confidence_score`. -/
theorem confidence_score_monotone (t s s' b b' a a' : ℚ)
    (hs : s ≤ s') (hb : b ≤ b') (ha : a ≤ a') :
    (CutCandidate.mk t s b a).confidence_score ≤
        (CutCandidate.mk t s' b a).confidence_score ∧
      (CutCandidate.mk t s b a).confidence_score ≤
        (CutCandidate.mk t s b' a).confidence_score ∧
      (CutCandidate.mk t s b a).confidence_score ≤
        (CutCandidate.mk t s b a').confidence_score := by
  unfold CutCandidate.confidence_score
  refine ⟨?_, ?_, ?_⟩ <;> dsimp only
  · have h := pyInt_mono hs
    split_ifs <;> omega
  · have h : (if b ≥ 0.2 then (10 : ℤ) else 0) ≤ (if b' ≥ 0.2 then 10 else 0) := by
      split_ifs with h1 h2
      · exact le_refl _
      · exact absurd (le_trans h1 hb) h2
      · norm_num
      · exact le_refl _
    omega
  · have h : (if a ≥ 5 then (10 : ℤ) else 0) ≤ (if a' ≥ 5 then 10 else 0) := by
      split_ifs with h1 h2
      · exact le_refl _
      · exact absurd (le_trans h1 ha) h2
      · norm_num
      · exact le_refl _
    omega

/-- Witness for C5 at `s = 1 ≤ 2`, `b = 0 ≤ 1`, `a = 0 ≤ 6`. -/
theorem confidence_score_monotone_witness :
    ((1 : ℚ) ≤ 2 ∧ (0 : ℚ) ≤ 1 ∧ (0 : ℚ) ≤ 6) ∧
      ((CutCandidate.mk 0 1 0 0).confidence_score ≤
          (CutCandidate.mk 0 2 0 0).confidence_score ∧
        (CutCandidate.mk 0 1 0 0).confidence_score ≤
          (CutCandidate.mk 0 1 1 0).confidence_score ∧
        (CutCandidate.mk 0 1 0 0).confidence_score ≤
          (CutCandidate.mk 0 1 0 6).confidence_score) :=
  ⟨⟨by norm_num, by norm_num, by norm_num⟩,
    confidence_score_monotone 0 1 2 0 1 0 6 (by norm_num) (by norm_num)
      (by norm_num)⟩

/-! ## C4 — Per-signal boundedness -/

/-- C4 counterexample: the scene-score contribution to
`confidence_score` is NOT bounded — with black and audio held at 0 the
score grows without bound in `scene_score` (it is the raw truncated
scene score). -/
theorem confidence_score_scene_unbounded :
    ¬ ∃ B : ℤ, ∀ s : ℚ, (CutCandidate.mk 0 s 0 0).confidence_score ≤ B := by
  rintro ⟨B, hB⟩
  have h := hB ((B + 1 : ℤ) : ℚ)
  rw [confidence_scene_only, pyInt_intCast] at h
  omega

/-- C4 amended: the black-frame and audio contributions are each bounded
by 10 points (jointly by 20), but the scene contribution is exactly the
truncated raw scene score, which is unbounded. -/
theorem confidence_score_black_audio_bounded (t s b a : ℚ) :
    (CutCandidate.mk t s b a).confidence_score ≤
        (CutCandidate.mk t s 0 a).confidence_score + 10 ∧
      (CutCandidate.mk t s b a).confidence_score ≤
        (CutCandidate.mk t s b 0).confidence_score + 10 ∧
      pyInt s ≤ (CutCandidate.mk t s b a).confidence_score ∧
      (CutCandidate.mk t s b a).confidence_score ≤ pyInt s + 20 := by
  unfold CutCandidate.confidence_score
  dsimp only
  split_ifs <;> omega

/-! ## C8 — Noise suppression idempotence -/

/-- C8: applying the Noise Suppressor to its own output (with the same
noise zones and margin) returns the output unchanged. -/
theorem suppress_noise_detections_idempotent (scenes : List (ℚ × ℚ))
    (noise_zones : List NoiseZone) (boundary_margin : ℚ) :
    suppress_noise_detections
        (suppress_noise_detections scenes noise_zones boundary_margin)
        noise_zones boundary_margin =
      suppress_noise_detections scenes noise_zones boundary_margin := by
  unfold suppress_noise_detections
  by_cases h : noise_zones.isEmpty
  · simp [h]
  · rw [if_neg h, if_neg h, List.filter_filter]
    congr 1
    funext p
    rw [Bool.and_self]

/-! ## C2 — The noise-zone scenario of spec §8 -/

/-- 200 scene events of score 3 spread evenly (0.15 s apart) across
seconds 100–130. -/
def noiseScenario : List (ℚ × ℚ) :=
  (List.range 200).map (fun (k : ℕ) => (100 + 3 * (k : ℚ) / 20, 3))

set_option maxRecDepth 100000 in
set_option maxHeartbeats 1000000 in
/-- C2 counterexample: on the even 200-event scenario the Noise Zone
Detector reports exactly one zone, but it spans `[100, 130]` — its end
is the last high-density window start (120) plus the window size (10) —
not approximately `[100, 139]`: no reported zone ends at 135 or later. -/
theorem noise_zone_scenario_counterexample :
    detect_noise_zones noiseScenario 10 (5/2) 10 5 = [⟨100, 130, 200⟩] ∧
      ¬ ∃ z, z ∈ detect_noise_zones noiseScenario 10 (5/2) 10 5 ∧
        (135 : ℚ) ≤ z.stop := by
  have h : detect_noise_zones noiseScenario 10 (5/2) 10 5 = [⟨100, 130, 200⟩] := by
    with_unfolding_all rfl
  refine ⟨h, ?_⟩
  rintro ⟨z, hz, hle⟩
  rw [h, List.mem_singleton] at hz
  subst hz
  norm_num at hle

set_option maxRecDepth 100000 in
set_option maxHeartbeats 1000000 in
/-- C2 amended: on the even 200-event scenario `detect_noise_zones`
reports exactly one `NoiseZone`, spanning `[100, 130]` with detection
count 200, and the Candidate Builder in `find_cuts` produces zero
candidates (every second's `max_score` is 3, below the 8-point floor). -/
theorem noise_zone_scenario :
    detect_noise_zones noiseScenario 10 (5/2) 10 5 = [⟨100, 130, 200⟩] ∧
      (find_cuts_all noiseScenario [] [] 12 1 2).2.1 = [] :=
  ⟨by with_unfolding_all rfl, by with_unfolding_all rfl⟩

/-! ## C3 — Behaviour on unreadable frame data -/

/-- A comparator for which every frame extraction fails: no frame pair
can ever be read. -/
def noneComparator : Comparator := fun _ _ => none

/-- C3 counterexample: a candidate at t=10 with `scene_score = 9`
(borderline: `max_score 9 < 10`), no black frame and no audio, sitting
within the 10 s margin of the noise zone `[5, 15]`, so both the
noise-zone histogram check and the borderline histogram check are
structurally required.  With frame data unreadable the candidate is
nevertheless INCLUDED in the verified output — verification fails OPEN,
not CLOSED. -/
theorem required_check_fails_open_counterexample :
    verify_candidates noneComparator [⟨10, 9, 0, 0⟩] [(10, 9)]
        [⟨5, 15, 30⟩] (7/10) = [⟨10, 9, 0, 0⟩] := by
  with_unfolding_all rfl

/-- C3 amended: when frame data cannot be read during verification every
check treats the candidate as valid (`verify_scene_change` returns
`(True, 0.0)` and `check_scene_stability` returns similarity 0, which is
never a flash), so ALL candidates — black-frame-bypassed or not — are
included: verification fails OPEN across the board. -/
theorem verification_fails_open (cands : List CutCandidate)
    (scene_max_scores : List (ℤ × ℚ)) (noise_zones : List NoiseZone)
    (threshold : ℚ) :
    verify_candidates noneComparator cands scene_max_scores noise_zones
      threshold = cands := by
  unfold verify_candidates
  rw [List.filter_eq_self]
  intro c _
  have hsc : verify_scene_change noneComparator c.time threshold = (true, 0) := rfl
  have hst : (check_scene_stability noneComparator c.time (955/1000)).1 = false := by
    unfold check_scene_stability compare_frames noneComparator
    simp only
    rw [decide_eq_false]
    rw [min_self]
    norm_num
  unfold verifyOne
  rw [hsc, hst]
  simp

/-! ## C1 — Gap invariant of the Greedy Selector -/

/-- One greedy step preserves the pairwise-gap invariant of the accepted
list. -/
theorem greedyStep_pairwise_gap (mc : ℤ) (mg : ℚ) (sel : List CutCandidate)
    (c : CutCandidate)
    (h : sel.Pairwise (fun a b => mg ≤ |a.time - b.time|)) :
    (greedyStep mc mg sel c).Pairwise (fun a b => mg ≤ |a.time - b.time|) := by
  unfold greedyStep
  split
  · exact h
  · split
    · exact h
    · next hany =>
      rw [List.pairwise_append]
      refine ⟨h, List.pairwise_singleton _ _, ?_⟩
      intro a ha b hb
      rw [List.mem_singleton] at hb
      have hall : ∀ e ∈ sel, ¬ |c.time - e.time| < mg := by
        intro e he hlt
        exact hany (List.any_eq_true.mpr ⟨e, he, decide_eq_true hlt⟩)
      rw [hb, abs_sub_comm]
      exact le_of_not_lt (hall a ha)

/-- The greedy fold preserves the pairwise-gap invariant. -/
theorem greedySelect_go_pairwise_gap (mc : ℤ) (mg : ℚ) :
    ∀ (l sel : List CutCandidate),
      sel.Pairwise (fun a b => mg ≤ |a.time - b.time|) →
      (l.foldl (greedyStep mc mg) sel).Pairwise
        (fun a b => mg ≤ |a.time - b.time|)
  | [], _, h => h
  | c :: l, sel, h =>
    greedySelect_go_pairwise_gap mc mg l (greedyStep mc mg sel c)
      (greedyStep_pairwise_gap mc mg sel c h)

theorem greedySelect_pairwise_gap (mc : ℤ) (mg : ℚ) (l : List CutCandidate) :
    (greedySelect mc mg l).Pairwise (fun a b => mg ≤ |a.time - b.time|) :=
  greedySelect_go_pairwise_gap mc mg l [] (List.Pairwise.nil)

/-- C1: every pair of distinct candidates in the selected list returned
by `find_cuts` is at least `min_gap` seconds apart. -/
theorem find_cuts_gap_invariant (scenes blacks : List (ℚ × ℚ))
    (audio : List (ℤ × ℚ)) (min_confidence : ℤ) (min_gap : ℚ) (window : ℕ) :
    (find_cuts scenes blacks audio min_confidence min_gap window).Pairwise
      (fun a b => min_gap ≤ |a.time - b.time|) := by
  unfold find_cuts find_cuts_all
  have hperm := List.perm_insertionSort
    (fun a b : CutCandidate => a.time ≤ b.time)
    (greedySelect min_confidence min_gap
      (List.insertionSort (fun a b => b.confidence_score ≤ a.confidence_score)
        (pipelineCandidates scenes blacks audio window)))
  have hsym : ∀ {a b : CutCandidate},
      min_gap ≤ |a.time - b.time| → min_gap ≤ |b.time - a.time| := by
    intro a b hab
    rwa [abs_sub_comm]
  exact (hperm.pairwise_iff hsym).mpr (greedySelect_pairwise_gap _ _ _)

/-! ## C9 — Confidence floor -/

/-- The greedy fold only ever accepts candidates meeting the confidence
floor. -/
theorem greedySelect_go_conf (mc : ℤ) (mg : ℚ) :
    ∀ (l sel : List CutCandidate),
      (∀ c ∈ sel, mc ≤ c.confidence_score) →
      ∀ c ∈ l.foldl (greedyStep mc mg) sel, mc ≤ c.confidence_score := by
  intro l
  induction l with
  | nil => intro sel h c hc; exact h c hc
  | cons x l ih =>
    intro sel h c hc
    refine ih (greedyStep mc mg sel x) ?_ c hc
    intro e he
    unfold greedyStep at he
    split at he
    · exact h e he
    · split at he
      · exact h e he
      · next hconf _ =>
        rcases List.mem_append.mp he with h1 | h2
        · exact h e h1
        · rw [List.mem_singleton] at h2
          subst h2
          exact le_of_not_lt hconf

/-- C9: every candidate in the selected (pre-verification) list returned
by `find_cuts` has `confidence_score ≥ min_confidence`. -/
theorem find_cuts_confidence_floor (scenes blacks : List (ℚ × ℚ))
    (audio : List (ℤ × ℚ)) (min_confidence : ℤ) (min_gap : ℚ) (window : ℕ)
    (c : CutCandidate)
    (hc : c ∈ find_cuts scenes blacks audio min_confidence min_gap window) :
    min_confidence ≤ c.confidence_score := by
  unfold find_cuts find_cuts_all at hc
  rw [List.mem_insertionSort] at hc
  exact greedySelect_go_conf min_confidence min_gap _ []
    (by intro e he; cases he) c hc

/-- Witness for C9 at the §8 single-scene scenario: the single selected
candidate meets the floor. -/
theorem find_cuts_confidence_floor_witness :
    CutCandidate.mk 10 30 0 0 ∈ find_cuts [((10 : ℚ), (30 : ℚ))] [] [] 12 1 2 ∧
      (12 : ℤ) ≤ (CutCandidate.mk 10 30 0 0).confidence_score := by
  have h : find_cuts [((10 : ℚ), (30 : ℚ))] [] [] 12 1 2 =
      [CutCandidate.mk 10 30 0 0] := by
    with_unfolding_all rfl
  have hmem : CutCandidate.mk 10 30 0 0 ∈
      find_cuts [((10 : ℚ), (30 : ℚ))] [] [] 12 1 2 := by
    rw [h]
    exact List.mem_singleton.mpr rfl
  exact ⟨hmem,
    find_cuts_confidence_floor [((10 : ℚ), (30 : ℚ))] [] [] 12 1 2 _ hmem⟩

/-! ## C7 — Noise zones chronologically non-overlapping -/

/-- Strict ordering of both boundaries between two zones. -/
def zlt (a b : NoiseZone) : Prop := a.start < b.start ∧ a.stop < b.stop

/-- `intRange` is strictly increasing. -/
theorem intRange_pairwise_lt (a b : ℤ) : (intRange a b).Pairwise (· < ·) := by
  unfold intRange
  rw [List.pairwise_map]
  exact (List.pairwise_lt_range _).imp (fun h => by omega)

/-- The high-density starting seconds are strictly increasing. -/
theorem high_density_secs_pairwise_lt (scenes : List (ℚ × ℚ)) (w : ℕ)
    (θ : ℚ) (a b : ℤ) :
    (high_density_secs scenes w θ a b).Pairwise (· < ·) :=
  (intRange_pairwise_lt _ _).sublist (List.filter_sublist _)

/-- Shape of an emitted zone: it spans `[zone_start, zone_end + w]`. -/
theorem emit_bound (scenes : List (ℚ × ℚ)) (w : ℕ) (d : ℚ) (hw : 1 ≤ w)
    (zs ze : ℤ) (hle : zs ≤ ze) :
    ∀ z ∈ emitZone scenes w d zs ze,
      z.start = (zs : ℚ) ∧ z.stop = (ze : ℚ) + (w : ℚ) ∧ z.start < z.stop := by
  unfold emitZone
  dsimp only
  intro z hz
  split at hz
  · rw [List.mem_singleton] at hz
    subst hz
    refine ⟨rfl, ?_, ?_⟩
    · push_cast
      ring
    · show (zs : ℚ) < ((zs + (ze - zs + (w : ℤ)) : ℤ) : ℚ)
      exact_mod_cast (by omega : zs < zs + (ze - zs + (w : ℤ)))
  · cases hz

/-- The emitted zones are pairwise ordered (there is at most one). -/
theorem emit_pairwise (scenes : List (ℚ × ℚ)) (w : ℕ) (d : ℚ) (zs ze : ℤ) :
    (emitZone scenes w d zs ze).Pairwise zlt := by
  unfold emitZone
  dsimp only
  split
  · exact List.pairwise_singleton _ _
  · exact List.Pairwise.nil

/-- Appending the emitted zone to a well-bounded accumulator preserves
ordering, positivity, and yields a bound in terms of `zone_end`. -/
theorem accEmit_invariant (scenes : List (ℚ × ℚ)) (w : ℕ) (d : ℚ)
    (hw : 1 ≤ w) (zs ze : ℤ) (hle : zs ≤ ze) (acc : List NoiseZone)
    (hbound : ∀ z ∈ acc, z.start < (zs : ℚ) ∧ z.stop < (zs : ℚ) + (w : ℚ))
    (hpw : acc.Pairwise zlt)
    (hss : ∀ z ∈ acc, z.start < z.stop) :
    (acc ++ emitZone scenes w d zs ze).Pairwise zlt ∧
      (∀ z ∈ acc ++ emitZone scenes w d zs ze, z.start < z.stop) ∧
      ∀ z ∈ acc ++ emitZone scenes w d zs ze,
        z.start ≤ (ze : ℚ) ∧ z.stop ≤ (ze : ℚ) + (w : ℚ) := by
  have hcast : (zs : ℚ) ≤ (ze : ℚ) := by exact_mod_cast hle
  refine ⟨?_, ?_, ?_⟩
  · rw [List.pairwise_append]
    refine ⟨hpw, emit_pairwise scenes w d zs ze, ?_⟩
    intro a ha b hb
    obtain ⟨hbs, hbe, _⟩ := emit_bound scenes w d hw zs ze hle b hb
    obtain ⟨h1, h2⟩ := hbound a ha
    constructor
    · rw [hbs]; exact h1
    · rw [hbe]; linarith
  · intro z hz
    rcases List.mem_append.mp hz with h | h
    · exact hss z h
    · exact (emit_bound scenes w d hw zs ze hle z h).2.2
  · intro z hz
    rcases List.mem_append.mp hz with h | h
    · obtain ⟨h1, h2⟩ := hbound z h
      exact ⟨by linarith, by linarith⟩
    · obtain ⟨h1, h2, _⟩ := emit_bound scenes w d hw zs ze hle z h
      exact ⟨le_of_eq h1 |>.trans hcast, le_of_eq h2⟩

/-- The grouping loop keeps zones ordered and non-degenerate, provided
the remaining high-density starts all lie beyond the current group. -/
theorem groupZones_invariant (scenes : List (ℚ × ℚ)) (w : ℕ) (d : ℚ)
    (hw : 1 ≤ w) :
    ∀ (ts : List ℤ) (acc : List NoiseZone) (zs ze : ℤ),
      zs ≤ ze →
      (∀ t ∈ ts, ze < t) →
      ts.Pairwise (· < ·) →
      (∀ z ∈ acc, z.start < (zs : ℚ) ∧ z.stop < (zs : ℚ) + (w : ℚ)) →
      acc.Pairwise zlt →
      (∀ z ∈ acc, z.start < z.stop) →
      (groupZones scenes w d acc zs ze ts).Pairwise zlt ∧
        ∀ z ∈ groupZones scenes w d acc zs ze ts, z.start < z.stop := by
  intro ts
  induction ts with
  | nil =>
    intro acc zs ze hle _ _ hbound hpw hss
    simp only [groupZones]
    obtain ⟨h1, h2, _⟩ := accEmit_invariant scenes w d hw zs ze hle acc hbound hpw hss
    exact ⟨h1, h2⟩
  | cons t ts ih =>
    intro acc zs ze hle hmem hpairs hbound hpw hss
    have hzet : ze < t := hmem t (List.mem_cons_self _ _)
    rw [List.pairwise_cons] at hpairs
    simp only [groupZones]
    split
    · exact ih acc zs t (le_trans hle (le_of_lt hzet)) hpairs.1 hpairs.2
        hbound hpw hss
    · obtain ⟨hpw', hss', hbnd'⟩ :=
        accEmit_invariant scenes w d hw zs ze hle acc hbound hpw hss
    -- the extended accumulator is bounded in terms of the new start `t`
      refine ih (acc ++ emitZone scenes w d zs ze) t t (le_refl t)
        hpairs.1 hpairs.2 ?_ hpw' hss'
      intro z hz
      obtain ⟨h1, h2⟩ := hbnd' z hz
      have hc : (ze : ℚ) < (t : ℚ) := by exact_mod_cast hzet
      exact ⟨lt_of_le_of_lt h1 hc, lt_of_le_of_lt h2 (by linarith)⟩

/-- Every zone produced by the merge loop starts no earlier than the
zone the loop was entered with. -/
theorem mergeZones_start_le (g : ℚ) :
    ∀ (zs : List NoiseZone) (cur : NoiseZone),
      (cur :: zs).Pairwise zlt →
      ∀ x ∈ mergeZones g cur zs, cur.start ≤ x.start := by
  intro zs
  induction zs with
  | nil =>
    intro cur _ x hx
    simp only [mergeZones, List.mem_singleton] at hx
    exact le_of_eq (by rw [hx])
  | cons z rest ih =>
    intro cur hpw x hx
    rw [List.pairwise_cons] at hpw
    obtain ⟨hcur, hpw'⟩ := hpw
    simp only [mergeZones] at hx
    split at hx
    · have hpw'' :
          (NoiseZone.mk cur.start z.stop
              (cur.detection_count + z.detection_count) :: rest).Pairwise zlt := by
        rw [List.pairwise_cons]
        rw [List.pairwise_cons] at hpw'
        refine ⟨?_, hpw'.2⟩
        intro b hb
        exact ⟨(hcur b (List.mem_cons_of_mem _ hb)).1, (hpw'.1 b hb).2⟩
      exact ih _ hpw'' x hx
    · rcases List.mem_cons.mp hx with h | h
      · exact le_of_eq (by rw [h])
      · exact le_trans (le_of_lt (hcur z (List.mem_cons_self _ _)).1)
          (ih z hpw' x h)

/-- After the merge loop the zones are pairwise separated: each zone
ends strictly before the next begins (needs `merge_gap ≥ 0`). -/
theorem mergeZones_pairwise (g : ℚ) (hg : 0 ≤ g) :
    ∀ (zs : List NoiseZone) (cur : NoiseZone),
      (cur :: zs).Pairwise zlt →
      (∀ x ∈ cur :: zs, x.start < x.stop) →
      (mergeZones g cur zs).Pairwise (fun a b => a.stop < b.start) := by
  intro zs
  induction zs with
  | nil =>
    intro cur _ _
    simp only [mergeZones]
    exact List.pairwise_singleton _ _
  | cons z rest ih =>
    intro cur hpw hss
    rw [List.pairwise_cons] at hpw
    obtain ⟨hcur, hpwz⟩ := hpw
    simp only [mergeZones]
    split
    · refine ih ⟨cur.start, z.stop, cur.detection_count + z.detection_count⟩ ?_ ?_
      · rw [List.pairwise_cons]
        rw [List.pairwise_cons] at hpwz
        refine ⟨?_, hpwz.2⟩
        intro b hb
        exact ⟨(hcur b (List.mem_cons_of_mem _ hb)).1, (hpwz.1 b hb).2⟩
      · intro x hx
        rcases List.mem_cons.mp hx with h | h
        · rw [h]
          show cur.start < z.stop
          exact lt_trans (hss cur (List.mem_cons_self _ _))
            (hcur z (List.mem_cons_self _ _)).2
        · exact hss x (List.mem_cons_of_mem _ (List.mem_cons_of_mem _ h))
    · next hgt =>
      rw [List.pairwise_cons]
      refine ⟨?_, ih z hpwz (fun x hx => hss x (List.mem_cons_of_mem _ hx))⟩
      intro b hb
      have hzb := mergeZones_start_le g rest z hpwz b hb
      have hlt : g < z.start - cur.stop := not_le.mp hgt
      calc cur.stop ≤ cur.stop + g := by linarith
        _ < z.start := by linarith
        _ ≤ b.start := hzb

/-- The raw zones are ordered with non-degenerate spans. -/
theorem rawZones_invariant (scenes : List (ℚ × ℚ)) (w : ℕ)
    (avg_threshold min_duration : ℚ) (hw : 1 ≤ w) :
    (rawZones scenes w avg_threshold min_duration).Pairwise zlt ∧
      ∀ z ∈ rawZones scenes w avg_threshold min_duration, z.start < z.stop := by
  unfold rawZones
  split
  · exact ⟨List.Pairwise.nil, fun z hz => absurd hz (List.not_mem_nil z)⟩
  · split
    · exact ⟨List.Pairwise.nil, fun z hz => absurd hz (List.not_mem_nil z)⟩
    · next h rest heq =>
      have hsorted := high_density_secs_pairwise_lt scenes w avg_threshold
        (minKey scenes) (maxKey scenes)
      rw [heq, List.pairwise_cons] at hsorted
      exact groupZones_invariant scenes w min_duration hw rest [] h h
        (le_refl h) hsorted.1 hsorted.2
        (fun z hz => absurd hz (List.not_mem_nil z)) List.Pairwise.nil
        (fun z hz => absurd hz (List.not_mem_nil z))

/-- A scene-event list whose raw (pre-merge) zones overlap: 25 events at
t = 5 and 25 events at t = 17 give raw zones `[5, 15]` and `[8, 18]`. -/
def overlapExample : List (ℚ × ℚ) :=
  List.replicate 25 ((5 : ℚ), (1 : ℚ)) ++ List.replicate 25 ((17 : ℚ), (1 : ℚ))

set_option maxRecDepth 100000 in
set_option maxHeartbeats 1000000 in
/-- C7: the zones returned by `detect_noise_zones` are chronologically
ordered and non-overlapping — each zone's start is strictly greater than
the previous zone's end — even though before the merge step the raw
window-end extension can make consecutive zones overlap (as
`overlapExample` shows). -/
theorem noise_zones_non_overlapping (scenes : List (ℚ × ℚ)) (w : ℕ)
    (avg_threshold min_duration merge_gap : ℚ) (hw : 1 ≤ w)
    (hg : 0 ≤ merge_gap) :
    (detect_noise_zones scenes w avg_threshold min_duration
        merge_gap).Pairwise (fun a b => a.stop < b.start) ∧
      ¬ (rawZones overlapExample 10 (5/2) 10).Pairwise
        (fun a b => a.stop < b.start) := by
  constructor
  · unfold detect_noise_zones
    split
    · exact List.Pairwise.nil
    · next z zs heq =>
      obtain ⟨hpw, hss⟩ :=
        rawZones_invariant scenes w avg_threshold min_duration hw
      rw [heq] at hpw hss
      exact mergeZones_pairwise merge_gap hg zs z hpw hss
  · have he : rawZones overlapExample 10 (5/2) 10 =
        [⟨5, 15, 25⟩, ⟨8, 18, 25⟩] := by with_unfolding_all rfl
    rw [he]
    intro hp
    have h1 := (List.pairwise_cons.mp hp).1 ⟨8, 18, 25⟩
      (List.mem_singleton.mpr rfl)
    norm_num at h1

set_option maxRecDepth 100000 in
set_option maxHeartbeats 1000000 in
/-- Witness for C7 at `overlapExample` with the default parameters. -/
theorem noise_zones_non_overlapping_witness :
    ((1 ≤ 10) ∧ (0 : ℚ) ≤ 5) ∧
      ((detect_noise_zones overlapExample 10 (5/2) 10 5).Pairwise
          (fun a b => a.stop < b.start) ∧
        ¬ (rawZones overlapExample 10 (5/2) 10).Pairwise
          (fun a b => a.stop < b.start)) :=
  ⟨⟨by norm_num, by norm_num⟩,
    noise_zones_non_overlapping overlapExample 10 (5/2) 10 5 (by norm_num)
      (by norm_num)⟩

/-! ## C6 and C10 — distinct candidate times and chronological output -/

/-- Dict-key collection yields no duplicate keys. -/
theorem firstKeys_go_nodup :
    ∀ (l acc : List ℤ), acc.Nodup →
      (l.foldl (fun acc k => if k ∈ acc then acc else acc ++ [k]) acc).Nodup
  | [], _, h => h
  | k :: l, acc, h => by
    simp only [List.foldl_cons]
    split
    · exact firstKeys_go_nodup l acc h
    · next hk =>
      refine firstKeys_go_nodup l (acc ++ [k]) ?_
      rw [List.nodup_append]
      exact ⟨h, List.nodup_singleton k,
        fun a ha hb => hk ((List.mem_singleton.mp hb) ▸ ha)⟩

theorem sceneKeys_nodup (filtered : List (ℚ × ℚ)) :
    (sceneKeys filtered).Nodup :=
  firstKeys_go_nodup _ [] List.nodup_nil

/-- Members of a cluster truncate to the cluster's second. -/
theorem clusterOf_key {filtered : List (ℚ × ℚ)} {t : ℤ} {p : ℚ × ℚ}
    (hp : p ∈ clusterOf filtered t) : pyInt p.1 = t := by
  have := List.of_mem_filter hp
  exact of_decide_eq_true this

theorem clusterOf_sub {filtered : List (ℚ × ℚ)} {t : ℤ} {p : ℚ × ℚ}
    (hp : p ∈ clusterOf filtered t) : p ∈ filtered :=
  List.mem_of_mem_filter hp

/-- The strongest detection of a cluster is one of its detections. -/
theorem bestDetection_mem :
    ∀ (ds : List (ℚ × ℚ)) (d : ℚ × ℚ), bestDetection d ds ∈ d :: ds
  | [], d => List.mem_singleton.mpr rfl
  | x :: xs, d => by
    unfold bestDetection
    rw [List.foldl_cons]
    have ih := bestDetection_mem xs (if x.2 > d.2 then x else d)
    rw [bestDetection] at ih
    rcases List.mem_cons.mp ih with h | h
    · rw [h]
      split
      · exact List.mem_cons_of_mem _ (List.mem_cons_self _ _)
      · exact List.mem_cons_self _ _
    · exact List.mem_cons_of_mem _ (List.mem_cons_of_mem _ h)

/-- A scene-cluster candidate for second `t` truncates to `t` and takes
the timestamp of one of the surviving scene events. -/
theorem sceneCandidate_time {filtered : List (ℚ × ℚ)}
    {bm : List (ℤ × (ℚ × ℚ))} {audio : List (ℤ × ℚ)} {window : ℕ} {t : ℤ}
    {c : CutCandidate}
    (h : sceneCandidate filtered bm audio window t = some c) :
    pyInt c.time = t ∧ ∃ p ∈ filtered, c.time = p.1 := by
  unfold sceneCandidate at h
  split at h
  · exact absurd h (by simp)
  · next d ds heq =>
    split at h
    · exact absurd h (by simp)
    · have hc := Option.some.inj h
      have hmem : bestDetection d ds ∈ clusterOf filtered t := by
        rw [heq]
        exact bestDetection_mem ds d
      constructor
      · rw [← hc]
        exact clusterOf_key hmem
      · exact ⟨bestDetection d ds, clusterOf_sub hmem, by rw [← hc]⟩

/-- Scene-cluster candidates have pairwise distinct cluster seconds. -/
theorem sceneCandidates_pairwise_keys (filtered : List (ℚ × ℚ))
    (bm : List (ℤ × (ℚ × ℚ))) (audio : List (ℤ × ℚ)) (window : ℕ) :
    (sceneCandidates filtered bm audio window).Pairwise
      (fun a b => pyInt a.time ≠ pyInt b.time) := by
  unfold sceneCandidates
  refine List.Pairwise.filterMap _ ?_ (sceneKeys_nodup filtered)
  intro t t' hne c hc c' hc'
  rw [Option.mem_def] at hc hc'
  rw [(sceneCandidate_time hc).1, (sceneCandidate_time hc').1]
  exact hne

/-- The key and second of a scene-cluster candidate lie in `sceneKeys`. -/
theorem sceneCandidates_mem {filtered : List (ℚ × ℚ)}
    {bm : List (ℤ × (ℚ × ℚ))} {audio : List (ℤ × ℚ)} {window : ℕ}
    {c : CutCandidate} (h : c ∈ sceneCandidates filtered bm audio window) :
    pyInt c.time ∈ sceneKeys filtered ∧ ∃ p ∈ filtered, c.time = p.1 := by
  obtain ⟨t, ht, hsome⟩ := List.mem_filterMap.mp h
  obtain ⟨hkey, hp⟩ := sceneCandidate_time hsome
  exact ⟨hkey ▸ ht, hp⟩

/-- An audio-only candidate sits at an integer second with no scene
cluster. -/
theorem audioCandidates_mem {filtered : List (ℚ × ℚ)}
    {bm : List (ℤ × (ℚ × ℚ))} {audio : List (ℤ × ℚ)} {c : CutCandidate}
    (h : c ∈ audioCandidates filtered bm audio) :
    ∃ u : ℤ, c.time = (u : ℚ) ∧ u ∉ sceneKeys filtered := by
  obtain ⟨p, _, hsome⟩ := List.mem_filterMap.mp h
  split at hsome
  · next hcond =>
    have hc := Option.some.inj hsome
    exact ⟨p.1, by rw [← hc], hcond.2⟩
  · exact absurd hsome (by simp)

/-- Audio-only candidates have pairwise distinct times when the audio
dict has no duplicate keys. -/
theorem audioCandidates_pairwise (filtered : List (ℚ × ℚ))
    (bm : List (ℤ × (ℚ × ℚ))) {audio : List (ℤ × ℚ)}
    (h : (audio.map Prod.fst).Nodup) :
    (audioCandidates filtered bm audio).Pairwise
      (fun a b => a.time ≠ b.time) := by
  unfold audioCandidates
  have h' : audio.Pairwise (fun p p' => p.1 ≠ p'.1) := by
    rw [List.Nodup, List.pairwise_map] at h
    exact h
  refine List.Pairwise.filterMap _ ?_ h'
  intro p p' hne c hc c' hc'
  rw [Option.mem_def] at hc hc'
  split at hc
  · split at hc'
    · have e1 := Option.some.inj hc
      have e2 := Option.some.inj hc'
      intro heq
      apply hne
      have : ((p.1 : ℚ)) = ((p'.1 : ℚ)) := by
        rw [← e1, ← e2] at heq
        exact heq
      exact_mod_cast this
    · exact absurd hc' (by simp)
  · exact absurd hc (by simp)

/-- All candidates produced by the Candidate Builder have pairwise
distinct times (scene candidates live in distinct integer seconds;
audio-only candidates sit at integer seconds with no scene cluster). -/
theorem pipelineCandidates_pairwise_time (scenes blacks : List (ℚ × ℚ))
    (audio : List (ℤ × ℚ)) (window : ℕ)
    (h : (audio.map Prod.fst).Nodup) :
    (pipelineCandidates scenes blacks audio window).Pairwise
      (fun a b => a.time ≠ b.time) := by
  unfold pipelineCandidates
  rw [List.pairwise_append]
  refine ⟨?_, audioCandidates_pairwise _ _ h, ?_⟩
  · exact (sceneCandidates_pairwise_keys _ _ _ _).imp
      (fun hne heq => hne (by rw [heq]))
  · intro a ha b hb heq
    obtain ⟨hka, _⟩ := sceneCandidates_mem ha
    obtain ⟨u, hu1, hu2⟩ := audioCandidates_mem hb
    apply hu2
    have : pyInt a.time = u := by
      rw [heq, hu1, pyInt_intCast]
    exact this ▸ hka

/-- A greedy step either keeps the accepted list or appends the
candidate. -/
theorem greedyStep_cases (mc : ℤ) (mg : ℚ) (sel : List CutCandidate)
    (c : CutCandidate) :
    greedyStep mc mg sel c = sel ∨ greedyStep mc mg sel c = sel ++ [c] := by
  unfold greedyStep
  split
  · exact Or.inl rfl
  · split
    · exact Or.inl rfl
    · exact Or.inr rfl

/-- The greedy fold appends a sublist of its input to the accumulator. -/
theorem greedySelect_go_sublist (mc : ℤ) (mg : ℚ) :
    ∀ (l sel : List CutCandidate),
      ∃ t, l.foldl (greedyStep mc mg) sel = sel ++ t ∧ t.Sublist l
  | [], sel => ⟨[], by simp, List.nil_sublist []⟩
  | c :: l, sel => by
    rw [List.foldl_cons]
    rcases greedyStep_cases mc mg sel c with h | h
    · rw [h]
      obtain ⟨t, h1, h2⟩ := greedySelect_go_sublist mc mg l sel
      exact ⟨t, h1, h2.cons c⟩
    · rw [h]
      obtain ⟨t, h1, h2⟩ := greedySelect_go_sublist mc mg l (sel ++ [c])
      refine ⟨c :: t, ?_, h2.cons₂ c⟩
      rw [h1, List.append_assoc]
      rfl

theorem greedySelect_sublist (mc : ℤ) (mg : ℚ) (l : List CutCandidate) :
    (greedySelect mc mg l).Sublist l := by
  obtain ⟨t, h1, h2⟩ := greedySelect_go_sublist mc mg l []
  rw [greedySelect, h1]
  exact h2

instance : IsTotal CutCandidate (fun a b => a.time ≤ b.time) :=
  ⟨fun a b => le_total a.time b.time⟩

instance : IsTrans CutCandidate (fun a b => a.time ≤ b.time) :=
  ⟨fun _ _ _ h1 h2 => le_trans h1 h2⟩

/-- The selected list of `find_cuts` is strictly increasing in time:
it is sorted chronologically and its times are pairwise distinct. -/
theorem find_cuts_pairwise_lt_time (scenes blacks : List (ℚ × ℚ))
    (audio : List (ℤ × ℚ)) (min_confidence : ℤ) (min_gap : ℚ) (window : ℕ)
    (h : (audio.map Prod.fst).Nodup) :
    (find_cuts scenes blacks audio min_confidence min_gap window).Pairwise
      (fun a b => a.time < b.time) := by
  have hsym : ∀ {a b : CutCandidate}, a.time ≠ b.time → b.time ≠ a.time :=
    fun hne => hne.symm
  have hne0 := pipelineCandidates_pairwise_time scenes blacks audio window h
  have hne1 := (List.perm_insertionSort
    (fun a b : CutCandidate => b.confidence_score ≤ a.confidence_score)
    (pipelineCandidates scenes blacks audio window)).pairwise_iff hsym |>.mpr hne0
  have hne2 := hne1.sublist (greedySelect_sublist min_confidence min_gap _)
  have hne3 := (List.perm_insertionSort
    (fun a b : CutCandidate => a.time ≤ b.time)
    (greedySelect min_confidence min_gap
      (List.insertionSort
        (fun a b => b.confidence_score ≤ a.confidence_score)
        (pipelineCandidates scenes blacks audio window)))).pairwise_iff hsym
    |>.mpr hne2
  have hsorted := List.sorted_insertionSort
    (fun a b : CutCandidate => a.time ≤ b.time)
    (greedySelect min_confidence min_gap
      (List.insertionSort
        (fun a b => b.confidence_score ≤ a.confidence_score)
        (pipelineCandidates scenes blacks audio window)))
  exact (hsorted.and hne3).imp (fun hab => lt_of_le_of_ne hab.1 hab.2)

/-- C6: the final verified-cut list (`verify_candidates` applied to the
selected output of `find_cuts`, with the `scene_max` and noise zones it
computed) is strictly increasing in time, for every comparator
behaviour. -/
theorem chronological_output (scenes blacks : List (ℚ × ℚ))
    (audio : List (ℤ × ℚ)) (min_confidence : ℤ) (min_gap : ℚ) (window : ℕ)
    (cmp : Comparator) (threshold : ℚ)
    (haudio : (audio.map Prod.fst).Nodup) :
    (verify_candidates cmp
        (find_cuts scenes blacks audio min_confidence min_gap window)
        (find_cuts_all scenes blacks audio min_confidence min_gap window).2.2.1
        (find_cuts_all scenes blacks audio min_confidence min_gap window).2.2.2
        threshold).Pairwise (fun a b => a.time < b.time) := by
  unfold verify_candidates
  exact (find_cuts_pairwise_lt_time scenes blacks audio min_confidence
    min_gap window haudio).sublist (List.filter_sublist _)

/-- Witness for C6 at the §8 scenario with the always-0.5 comparator
stub. -/
theorem chronological_output_witness :
    (([] : List (ℤ × ℚ)).map Prod.fst).Nodup ∧
      (verify_candidates (fun _ _ => some (1/2))
          (find_cuts [((10 : ℚ), (30 : ℚ))] [] [] 12 1 2)
          (find_cuts_all [((10 : ℚ), (30 : ℚ))] [] [] 12 1 2).2.2.1
          (find_cuts_all [((10 : ℚ), (30 : ℚ))] [] [] 12 1 2).2.2.2
          (7/10)).Pairwise (fun a b => a.time < b.time) :=
  ⟨List.nodup_nil,
    chronological_output [((10 : ℚ), (30 : ℚ))] [] [] 12 1 2
      (fun _ _ => some (1/2)) (7/10) List.nodup_nil⟩

/-- The noise suppressor only removes events. -/
theorem suppress_noise_detections_sublist (scenes : List (ℚ × ℚ))
    (noise_zones : List NoiseZone) (boundary_margin : ℚ) :
    (suppress_noise_detections scenes noise_zones boundary_margin).Sublist
      scenes := by
  unfold suppress_noise_detections
  split
  · exact List.Sublist.refl _
  · exact List.filter_sublist _

/-- C10: the Candidate Builder produces at most one candidate per
integer second — a scene-cluster candidate's time lies in `[t, t+1)`
for its cluster second `t = int(time)` (given nonnegative event
timestamps), an audio-only candidate sits at an integer second with no
scene cluster, and consequently all candidate times produced by
`find_cuts` are pairwise distinct. -/
theorem candidate_builder_one_per_second (scenes blacks : List (ℚ × ℚ))
    (audio : List (ℤ × ℚ)) (min_confidence : ℤ) (min_gap : ℚ) (window : ℕ)
    (htimes : ∀ p ∈ scenes, 0 ≤ p.1)
    (haudio : (audio.map Prod.fst).Nodup) :
    (∀ c ∈ sceneCandidates (pipelineFiltered scenes) (black_map blacks)
        audio window,
      (pyInt c.time : ℚ) ≤ c.time ∧ c.time < (pyInt c.time : ℚ) + 1) ∧
      (∀ c ∈ audioCandidates (pipelineFiltered scenes) (black_map blacks)
          audio,
        ∃ u : ℤ, c.time = (u : ℚ) ∧ u ∉ sceneKeys (pipelineFiltered scenes)) ∧
      (find_cuts_all scenes blacks audio min_confidence min_gap
          window).2.1.Pairwise (fun a b => a.time ≠ b.time) := by
  refine ⟨?_, ?_, ?_⟩
  · intro c hc
    obtain ⟨_, p, hp, hcp⟩ := sceneCandidates_mem hc
    have h0 : 0 ≤ c.time := by
      rw [hcp]
      exact htimes p
        ((suppress_noise_detections_sublist scenes _ _).subset hp)
    rw [pyInt_nonneg_eq_floor h0]
    exact ⟨Int.floor_le c.time, Int.lt_floor_add_one c.time⟩
  · intro c hc
    exact audioCandidates_mem hc
  · exact pipelineCandidates_pairwise_time scenes blacks audio window haudio

/-- Witness for C10: a scene event at 10.0 and an isolated strong audio
step at second 20 yield two candidates with distinct times. -/
theorem candidate_builder_one_per_second_witness :
    (∀ p ∈ [((10 : ℚ), (30 : ℚ))], 0 ≤ p.1) ∧
      (([((20 : ℤ), (20 : ℚ))].map Prod.fst).Nodup) ∧
      (find_cuts_all [((10 : ℚ), (30 : ℚ))] [] [((20 : ℤ), (20 : ℚ))] 12 1
          2).2.1.Pairwise (fun a b => a.time ≠ b.time) := by
  have h1 : ∀ p ∈ [((10 : ℚ), (30 : ℚ))], 0 ≤ p.1 := by
    intro p hp
    rw [List.mem_singleton] at hp
    rw [hp]
    norm_num
  have h2 : (([((20 : ℤ), (20 : ℚ))]).map Prod.fst).Nodup :=
    List.nodup_singleton _
  exact ⟨h1, h2,
    (candidate_builder_one_per_second [((10 : ℚ), (30 : ℚ))] []
      [((20 : ℤ), (20 : ℚ))] 12 1 2 h1 h2).2.2⟩
